import Mathlib

/-!
Verification of the streaming audio playback pipeline of `inv-2025`
(`src/utils.ts` and the `onmessage` / scheduler / throttle logic of
`src/index.tsx`).

Modelling conventions:
* JavaScript numbers are modelled as `ℚ`.  Every arithmetic operation the
  relevant code performs on audio samples is exact in binary floating point
  (multiplication by the power of two 32768, `Math.min`/`Math.max`,
  truncating conversion to `Int16Array`, and division of a 16-bit integer
  by 32768), so the rational model introduces no rounding discrepancy.
* Byte values are `ℕ` (used mod 256), 16-bit wire samples are `ℤ`.
* Fallible browser API calls (`AudioContext.createBuffer`,
  `AudioBuffer.copyToChannel`) return `Except String _`; they are modelled
  from the Web Audio API standard, which the repository calls into.
-/

namespace Inv2025

/-- JavaScript `ToIntegerOrInfinity` on a finite number: truncation toward
zero (floor for nonnegative values, ceiling for negative ones). -/
def jsTrunc (q : ℚ) : ℤ := if 0 ≤ q then ⌊q⌋ else ⌈q⌉

/-- JavaScript `ToUint32` of a finite number: truncate toward zero, then
reduce modulo 2^32 into `[0, 2^32)`. -/
def jsToUint32 (q : ℚ) : ℕ := ((jsTrunc q) % (2 ^ 32 : ℤ)).toNat

/-- `src/utils.ts` `createBlob`, line 31: the value stored into the
`Int16Array` for one float sample, namely
`int16[i] = Math.max(-32768, Math.min(32767, data[i] * 32768))`.
The store into an `Int16Array` truncates the clamped value toward zero
(`ToIntegerOrInfinity`); the result already lies in `[-32768, 32767]`, so
the 2^16 wrap of the store is the identity. -/
def jsToInt16 (s : ℚ) : ℤ := jsTrunc (max (-32768) (min 32767 (s * 32768)))

/-- Little-endian byte pair of a 16-bit signed value (the layout of
`new Uint8Array(int16.buffer)` on the little-endian platforms browsers run
on): two's-complement low byte then high byte. -/
def int16ToBytesLE (v : ℤ) : List ℕ :=
  let u := (v % 65536).toNat
  [u % 256, u / 256]

/-- `src/utils.ts` `createBlob`, lines 26-38: convert a float sample
sequence to the 16-bit little-endian wire bytes.  (The source additionally
base64-encodes these bytes into the blob's `data` field via `encode`; the
claims under study concern the byte packing, so the model stops at the
byte sequence.) -/
def createBlob (data : List ℚ) : List ℕ :=
  (data.map jsToInt16).flatMap int16ToBytesLE

/-- Reading one 16-bit sample from a little-endian byte pair, as
`Int16Array` does in `src/utils.ts` line 63: unsigned 16-bit value
reinterpreted as two's complement. -/
def int16FromBytes (lo hi : ℕ) : ℤ :=
  let u := lo % 256 + 256 * (hi % 256)
  if u < 32768 then (u : ℤ) else (u : ℤ) - 65536

/-- The `Int16Array` view of a byte sequence (`src/utils.ts` line 63):
consecutive little-endian byte pairs; a trailing odd byte is dropped. -/
def bytesToInt16s : List ℕ → List ℤ
  | lo :: hi :: rest => int16FromBytes lo hi :: bytesToInt16s rest
  | _ => []

/-- `src/utils.ts` `decodeAudioData`, lines 63-68: map the 16-bit wire
samples back to floats via `dataFloat32[i] = dataInt16[i] / 32768.0`. -/
def decodeSamples (wireBytes : List ℕ) : List ℚ :=
  (bytesToInt16s wireBytes).map (fun v => (v : ℚ) / 32768)

/-- A Web Audio `AudioBuffer`: per-channel float sample data at a sample
rate.  `channels.length` is `numberOfChannels`; each inner list is one
channel's frames. -/
structure AudioBuffer where
  sampleRate : ℚ
  channels : List (List ℚ)
deriving DecidableEq, Repr

/-- `AudioContext.createBuffer`, modelled from the Web Audio API standard
(an external browser API the repository calls): throws `NotSupportedError`
when `numberOfChannels` is zero or exceeds the implementation's supported
maximum `maxCh` (the standard requires `maxCh ≥ 32`), or when `length` is
zero; otherwise returns a zero-filled buffer.  (The standard also
restricts `sampleRate` to an implementation-defined range containing
[8000, 96000]; no claim under study depends on that check, so it is not
modelled.) -/
def createBuffer (maxCh numberOfChannels length : ℕ) (sampleRate : ℚ) :
    Except String AudioBuffer :=
  if numberOfChannels = 0 ∨ maxCh < numberOfChannels ∨ length = 0 then
    .error "NotSupportedError"
  else
    .ok ⟨sampleRate, List.replicate numberOfChannels (List.replicate length 0)⟩

/-- `AudioBuffer.copyToChannel`, modelled from the Web Audio API standard:
throws `IndexSizeError` for a channel index out of range, otherwise copies
`min (source.length) (frameCount)` frames from the start of `source` into
the channel, leaving the rest of the channel untouched. -/
def copyToChannel (buf : AudioBuffer) (source : List ℚ) (channelNumber : ℕ) :
    Except String AudioBuffer :=
  if h : channelNumber < buf.channels.length then
    let old := buf.channels.get ⟨channelNumber, h⟩
    let n := min source.length old.length
    .ok { buf with channels := buf.channels.set channelNumber (source.take n ++ old.drop n) }
  else
    .error "IndexSizeError"

/-- `src/utils.ts` `decodeAudioData`, lines 40-88, traced statement by
statement.  `maxCh` is the implementation's channel-count limit for
`createBuffer` (≥ 32 per the standard).  `data` is the wire byte sequence
(`Uint8Array` at byte offset 0, as produced by `decode`); `numChannels`
is an integer (every caller passes the literal 2).

* `byteLength` (line 47) drops a trailing odd byte.
* `bufferLength` (line 48) is the plain JS division
  `byteLength / 2 / numChannels`; for `numChannels = 0` it is Infinity or
  NaN, which is never `=== 0`, and `ToUint32` of it is 0.
* The `bufferLength === 0` early return (lines 50-54) matches
  `numChannels ≠ 0 ∧ bufferLength = 0` (JS `-0 === 0` is true).
* Line 56 passes `numChannels` and `bufferLength` to `createBuffer`; the
  WebIDL `unsigned long` conversion is `ToUint32`.
* In the `numChannels > 1` branch (lines 73-80), the per-channel
  `Float32Array(bufferLength)` has `⌊bufferLength⌋` elements; the `j` loop
  runs while `j < bufferLength`, but its stores past the array's end are
  dropped, so the retained elements are exactly indices
  `j * numChannels + i` for `j < ⌊bufferLength⌋`, each in range of
  `dataFloat32`. -/
def decodeAudioData (maxCh : ℕ) (data : List ℕ) (sampleRate : ℚ)
    (numChannels : ℤ) : Except String AudioBuffer :=
  let byteLength : ℕ := if data.length % 2 = 0 then data.length else data.length - 1
  let bufferLength : ℚ := (byteLength : ℚ) / 2 / (numChannels : ℚ)
  if numChannels ≠ 0 ∧ bufferLength = 0 then
    createBuffer maxCh (if 0 < numChannels then numChannels.toNat else 1) 1 sampleRate
  else
    let chConv : ℕ := jsToUint32 (numChannels : ℚ)
    let lenConv : ℕ := if numChannels = 0 then 0 else jsToUint32 bufferLength
    match createBuffer maxCh chConv lenConv sampleRate with
    | .error e => .error e
    | .ok buffer =>
      let dataFloat32 := decodeSamples (data.take byteLength)
      if numChannels = 1 then
        copyToChannel buffer dataFloat32 0
      else if 1 < numChannels then
        let chanLen : ℕ := (jsTrunc bufferLength).toNat
        let nc : ℕ := numChannels.toNat
        (List.range nc).foldlM (fun b i =>
          let channelData := (List.range chanLen).map
            (fun j => dataFloat32.getD (j * nc + i) 0)
          copyToChannel b channelData i) buffer
      else
        createBuffer maxCh 1 1 sampleRate

/-- `src/index.tsx` line 34: the playback states. -/
inductive PlaybackState
  | stopped | playing | loading | paused
deriving DecidableEq, Repr

/-- `src/index.tsx` line 1592: `private readonly bufferTime = 2` (seconds
of pre-roll). -/
def bufferTime : ℚ := 2

/-- The scheduler-relevant state of the `PromptDj` component
(`src/index.tsx`), together with observation fields recording what the
`onmessage` handler did:

* `playbackState`, `nextStartTime` — the component fields (lines 1591,
  1593); `nextStartTime = 0` is the "not initialized for this run"
  sentinel.
* `pendingTimers` — delays (in ms) of armed, not-yet-fired `setTimeout`
  callbacks from line 1664, oldest first.
* `scheduled` — the `(startTime, duration)` of every `source.start`
  issued (line 1674), in issue order.
* `decodeCalls` — how many times `decodeAudioData` was invoked
  (line 1652).
* `underruns` — how many times the underrun branch (lines 1669-1673)
  logged `Audio buffer underrun`. -/
structure SchedState where
  playbackState : PlaybackState
  nextStartTime : ℚ
  pendingTimers : List ℚ
  scheduled : List (ℚ × ℚ)
  decodeCalls : ℕ
  underruns : ℕ
deriving DecidableEq, Repr

/-- The audio-chunk part of the `onmessage` handler (`src/index.tsx`
lines 1646-1676), as one atomic step (per §5 of the design, decoding and
scheduling are synchronous computations on one logical thread).  `now` is
`audioContext.currentTime` at the callback, `dur` the decoded
`audioBuffer.duration` (frame count / sample rate).

* Lines 1647-1651: while `paused` or `stopped`, return before decoding.
* Line 1652: decode (counted in `decodeCalls`).
* Lines 1661-1667: if `nextStartTime === 0`, anchor it to
  `now + bufferTime` and arm a `setTimeout` of `bufferTime * 1000` ms.
* Lines 1669-1673: if `nextStartTime < now`, log the underrun, force
  `loading`, re-anchor to `now + bufferTime`.
* Lines 1674-1675: `source.start(nextStartTime)` then
  `nextStartTime += duration`. -/
def onAudioChunk (s : SchedState) (now dur : ℚ) : SchedState :=
  if s.playbackState = .paused ∨ s.playbackState = .stopped then s
  else
    let s1 := { s with decodeCalls := s.decodeCalls + 1 }
    let s2 :=
      if s1.nextStartTime = 0 then
        { s1 with nextStartTime := now + bufferTime,
                  pendingTimers := s1.pendingTimers ++ [bufferTime * 1000] }
      else s1
    let s3 :=
      if s2.nextStartTime < now then
        { s2 with playbackState := .loading,
                  nextStartTime := now + bufferTime,
                  underruns := s2.underruns + 1 }
      else s2
    { s3 with scheduled := s3.scheduled ++ [(s3.nextStartTime, dur)],
              nextStartTime := s3.nextStartTime + dur }

/-- The `setTimeout` callback armed at `src/index.tsx` lines 1664-1666
firing (oldest armed timer first):
`if (this.playbackState === 'loading') this.playbackState = 'playing'`.
With no pending timer nothing happens. -/
def fireTimer (s : SchedState) : SchedState :=
  match s.pendingTimers with
  | [] => s
  | _ :: rest =>
      { s with pendingTimers := rest,
               playbackState :=
                 if s.playbackState = .loading then .playing else s.playbackState }

/-- An event delivered to the scheduler: an audio chunk arriving (with the
audio-clock reading and the decoded buffer's duration), or a pending
pre-roll timer firing. -/
inductive SchedEvent
  | chunk (now dur : ℚ)
  | timer
deriving DecidableEq, Repr

/-- One event step. -/
def schedStep (s : SchedState) : SchedEvent → SchedState
  | .chunk now dur => onAudioChunk s now dur
  | .timer => fireTimer s

/-- Run a sequence of scheduler events. -/
def runEvents (s : SchedState) (events : List SchedEvent) : SchedState :=
  events.foldl schedStep s

/-- Run a sequence of audio-chunk arrivals `(now, duration)`. -/
def runChunks (s : SchedState) (events : List (ℚ × ℚ)) : SchedState :=
  events.foldl (fun t e => onAudioChunk t e.1 e.2) s

/-- `src/index.tsx` `throttle`, lines 37-47: `lastCall` starts at 0; a
call at time `now` executes `func` immediately iff
`now - lastCall >= delay`, and only then updates `lastCall`; otherwise
the call is discarded.  `calls` is the list of `(Date.now(), state read
by func at execution)` pairs, in order; the result is the list of calls
that actually execute (in `setSessionPrompts`, the sends that reach the
transport). -/
def throttleRun (delay : ℚ) : ℚ → List (ℚ × α) → List (ℚ × α)
  | _, [] => []
  | lastCall, (now, x) :: rest =>
      if delay ≤ now - lastCall then (now, x) :: throttleRun delay now rest
      else throttleRun delay lastCall rest

/-- `src/index.tsx` line 1703/1719: `setSessionPrompts` is
`throttle(..., 200)`; its sends for a given call sequence. -/
def setSessionPromptsSends (calls : List (ℚ × α)) : List (ℚ × α) :=
  throttleRun 200 0 calls

/-- The sample conversion as claim C5 words it:
`round(clamp(s, -1, 1) * 32768)`, clamped to `[-32768, 32767]`.  This
definition follows the spec's words, for comparison against `jsToInt16`
(the source's conversion). -/
def specRoundInt16 (s : ℚ) : ℤ :=
  max (-32768) (min 32767 (round (max (-1) (min 1 s) * 32768)))

/-- The byte packing claim C5 describes, built on `specRoundInt16` (the
spec's words). -/
def specCreateBlob (data : List ℚ) : List ℕ :=
  (data.map specRoundInt16).flatMap int16ToBytesLE

/-- The amended C5 sample conversion: `trunc` toward zero in place of
`round`, i.e. `trunc(clamp(s, -1, 1) * 32768)` clamped to
`[-32768, 32767]`. -/
def truncSpecInt16 (s : ℚ) : ℤ :=
  max (-32768) (min 32767 (jsTrunc (max (-1) (min 1 s) * 32768)))

/-- The start/duration sequence the spec describes for an underrun-free
run: the first buffer starts at `now + bufferTime` when the anchor is the
0 sentinel (otherwise at the anchor), and each later buffer starts where
the previous one ended. -/
def chainStarts (anchor : ℚ) : List (ℚ × ℚ) → List (ℚ × ℚ)
  | [] => []
  | (now, dur) :: rest =>
      let start := if anchor = 0 then now + bufferTime else anchor
      (start, dur) :: chainStarts (start + dur) rest

/-- No underrun occurs along a run of chunk arrivals: at each arrival the
current `nextStartTime` is either the uninitialized-sentinel 0 (the
first-buffer branch re-anchors it ahead of the clock) or at least the
audio-clock reading, so the underrun branch (line 1669) is never taken. -/
def noUnderrunRun : SchedState → List (ℚ × ℚ) → Bool
  | _, [] => true
  | s, e :: rest =>
      (s.nextStartTime = 0 ∨ e.1 ≤ s.nextStartTime) &&
        noUnderrunRun (onAudioChunk s e.1 e.2) rest

/-- A well-formed scheduler event: chunk arrivals carry a nonnegative
audio-clock reading and a nonnegative buffer duration. -/
def eventWF : SchedEvent → Prop
  | .chunk now dur => 0 ≤ now ∧ 0 ≤ dur
  | .timer => True

instance : DecidablePred eventWF := fun e => by
  cases e with
  | chunk now dur => exact inferInstanceAs (Decidable (0 ≤ now ∧ 0 ≤ dur))
  | timer => exact inferInstanceAs (Decidable True)

/-!  ## Helper lemmas  -/

theorem jsTrunc_monotone : Monotone jsTrunc := by
  intro a b hab
  unfold jsTrunc
  split_ifs with ha hb hb
  · exact Int.floor_mono hab
  · exact absurd (ha.trans hab) hb
  · have h1 : ⌈a⌉ ≤ 0 := Int.ceil_le.mpr (by push_cast; linarith)
    have h2 : (0 : ℤ) ≤ ⌊b⌋ := Int.floor_nonneg.mpr hb
    omega
  · exact Int.ceil_mono hab

theorem jsTrunc_intCast (n : ℤ) : jsTrunc (n : ℚ) = n := by
  unfold jsTrunc
  split_ifs
  · exact Int.floor_intCast n
  · exact Int.ceil_intCast n

/-- The source's clamp-then-store conversion agrees with the amended
spec formula (clamp to `[-1, 1]`, scale, truncate toward zero, clamp to
the 16-bit range). -/
theorem jsToInt16_eq_truncSpec (s : ℚ) : jsToInt16 s = truncSpecInt16 s := by
  unfold jsToInt16 truncSpecInt16
  rw [jsTrunc_monotone.map_max, jsTrunc_monotone.map_min,
    max_mul_of_nonneg _ _ (by norm_num : (0 : ℚ) ≤ 32768),
    min_mul_of_nonneg _ _ (by norm_num : (0 : ℚ) ≤ 32768),
    (by norm_num : (-1 : ℚ) * 32768 = ((-32768 : ℤ) : ℚ)),
    (by norm_num : (1 : ℚ) * 32768 = ((32768 : ℤ) : ℚ)),
    jsTrunc_monotone.map_max, jsTrunc_monotone.map_min,
    (by norm_num : (-32768 : ℚ) = ((-32768 : ℤ) : ℚ)),
    (by norm_num : (32767 : ℚ) = ((32767 : ℤ) : ℚ)),
    jsTrunc_intCast, jsTrunc_intCast, jsTrunc_intCast]
  rcases le_total (jsTrunc (s * 32768)) (-32768) with h | h <;>
    rcases le_total (jsTrunc (s * 32768)) 32767 with h2 | h2 <;>
    rcases le_total (jsTrunc (s * 32768)) 32768 with h3 | h3 <;>
    simp [max_def, min_def] <;> omega

/-!  ## Theorems  -/

/-- C3: For every inbound audio segment that arrives while `PlaybackState`
is `paused` or `stopped`, the pipeline decodes nothing, schedules no audio
on the output graph, and leaves `nextStartTime` unchanged (the handler
returns before the decode at line 1652); in particular no decoded audio is
ever scheduled in those two states.  The whole scheduler state, including
the `decodeCalls` and `scheduled` observation fields, is untouched. -/
theorem scheduler_ignores_chunks_when_inactive (s : SchedState) (now dur : ℚ)
    (h : s.playbackState = .paused ∨ s.playbackState = .stopped) :
    onAudioChunk s now dur = s := by
  unfold onAudioChunk
  rcases h with h | h <;> simp [h]

theorem scheduler_ignores_chunks_when_inactive_witness :
    onAudioChunk ⟨.paused, 5, [], [], 0, 0⟩ 9 1 = ⟨.paused, 5, [], [], 0, 0⟩ :=
  scheduler_ignores_chunks_when_inactive _ 9 1 (Or.inl rfl)

/-- C2: Whenever the handler processes a buffer with `nextStartTime`
already initialized (nonzero) and strictly less than the audio-clock time,
it reports the underrun, forces the state back to `loading`, re-anchors
`nextStartTime` to the clock time plus the full `bufferTime` pre-roll
(2 seconds), and schedules the buffer at the re-anchored time (after which
`nextStartTime` advances by the buffer's duration). -/
theorem scheduler_underrun_reanchor (s : SchedState) (now dur : ℚ)
    (hgate : s.playbackState ≠ .paused ∧ s.playbackState ≠ .stopped)
    (hinit : s.nextStartTime ≠ 0) (hlate : s.nextStartTime < now) :
    (onAudioChunk s now dur).underruns = s.underruns + 1 ∧
    (onAudioChunk s now dur).playbackState = .loading ∧
    (onAudioChunk s now dur).scheduled = s.scheduled ++ [(now + 2, dur)] ∧
    (onAudioChunk s now dur).nextStartTime = now + 2 + dur := by
  obtain ⟨h1, h2⟩ := hgate
  unfold onAudioChunk
  rw [if_neg (by simp [h1, h2])]
  simp [hinit, hlate, bufferTime]

theorem scheduler_underrun_reanchor_witness :
    (onAudioChunk ⟨.playing, 3, [], [], 0, 0⟩ 10 1).underruns = 0 + 1 ∧
    (onAudioChunk ⟨.playing, 3, [], [], 0, 0⟩ 10 1).playbackState = .loading ∧
    (onAudioChunk ⟨.playing, 3, [], [], 0, 0⟩ 10 1).scheduled = [] ++ [(10 + 2, 1)] ∧
    (onAudioChunk ⟨.playing, 3, [], [], 0, 0⟩ 10 1).nextStartTime = 10 + 2 + 1 :=
  scheduler_underrun_reanchor ⟨.playing, 3, [], [], 0, 0⟩ 10 1
    ⟨by decide, by decide⟩ (by decide) (by decide)

/-- C4: When the first buffer of a run is processed (`nextStartTime = 0`),
the handler anchors `nextStartTime` to the clock time plus `bufferTime`
(2 s), schedules the buffer there, leaves the playback state unchanged,
and arms a one-shot `setTimeout` of `bufferTime * 1000` ms; when an armed
timer fires, the state becomes `playing` exactly when it is still
`loading` at that moment, and any other state (a user pause or stop in the
interim) is left untouched. -/
theorem scheduler_first_buffer_preroll (s t : SchedState) (now dur : ℚ)
    (hgate : s.playbackState ≠ .paused ∧ s.playbackState ≠ .stopped)
    (hfirst : s.nextStartTime = 0)
    (ht : t.pendingTimers ≠ []) :
    (onAudioChunk s now dur).pendingTimers = s.pendingTimers ++ [bufferTime * 1000] ∧
    (onAudioChunk s now dur).nextStartTime = now + bufferTime + dur ∧
    (onAudioChunk s now dur).scheduled = s.scheduled ++ [(now + bufferTime, dur)] ∧
    (onAudioChunk s now dur).playbackState = s.playbackState ∧
    (fireTimer t).playbackState =
      (if t.playbackState = .loading then .playing else t.playbackState) ∧
    (fireTimer t).pendingTimers = t.pendingTimers.tail := by
  obtain ⟨h1, h2⟩ := hgate
  unfold onAudioChunk
  rw [if_neg (by simp [h1, h2])]
  have hnolate : ¬ (now + bufferTime < now) := by unfold bufferTime; linarith
  rcases hpt : t.pendingTimers with _ | ⟨d, rest⟩
  · exact absurd hpt ht
  · simp [hfirst, hnolate, fireTimer, hpt]

theorem scheduler_first_buffer_preroll_witness :
    (onAudioChunk ⟨.loading, 0, [], [], 0, 0⟩ 5 1).pendingTimers = [] ++ [bufferTime * 1000] ∧
    (onAudioChunk ⟨.loading, 0, [], [], 0, 0⟩ 5 1).nextStartTime = 5 + bufferTime + 1 ∧
    (onAudioChunk ⟨.loading, 0, [], [], 0, 0⟩ 5 1).scheduled = [] ++ [(5 + bufferTime, 1)] ∧
    (onAudioChunk ⟨.loading, 0, [], [], 0, 0⟩ 5 1).playbackState = PlaybackState.loading ∧
    (fireTimer ⟨.paused, 0, [2000], [], 0, 0⟩).playbackState =
      (if PlaybackState.paused = PlaybackState.loading then PlaybackState.playing
        else PlaybackState.paused) ∧
    (fireTimer ⟨.paused, 0, [2000], [], 0, 0⟩).pendingTimers = [(2000 : ℚ)].tail :=
  scheduler_first_buffer_preroll ⟨.loading, 0, [], [], 0, 0⟩ ⟨.paused, 0, [2000], [], 0, 0⟩
    5 1 ⟨by decide, by decide⟩ (by decide) (by decide)

/-- C5, counterexample: the claim maps a sample `s` to
`round(clamp(s, -1, 1) * 32768)`, but the source (`createBlob`, line 31,
storing into an `Int16Array`) truncates toward zero.  At `s = 7/327680`
(so `s * 32768 = 0.7`) the spec's formula gives the 16-bit value 1
(bytes `[1, 0]`), while the code produces 0 (bytes `[0, 0]`). -/
theorem createBlob_round_counterexample :
    createBlob [7 / 327680] = [0, 0] ∧
    specCreateBlob [7 / 327680] = [1, 0] ∧
    createBlob [7 / 327680] ≠ specCreateBlob [7 / 327680] := by
  have hj : jsToInt16 (7 / 327680) = 0 := by
    unfold jsToInt16 jsTrunc
    rw [(by norm_num : (7 : ℚ) / 327680 * 32768 = 7 / 10),
      (by norm_num : min (32767 : ℚ) (7 / 10) = 7 / 10),
      (by norm_num : max (-32768 : ℚ) (7 / 10) = 7 / 10),
      if_pos (by norm_num : (0 : ℚ) ≤ 7 / 10), Int.floor_eq_iff]
    norm_num
  have hr : specRoundInt16 (7 / 327680) = 1 := by
    unfold specRoundInt16
    rw [(by norm_num : min (1 : ℚ) (7 / 327680) = 7 / 327680),
      (by norm_num : max (-1 : ℚ) (7 / 327680) = 7 / 327680),
      (by norm_num : (7 : ℚ) / 327680 * 32768 = 7 / 10)]
    have hround : round ((7 : ℚ) / 10) = 1 := by
      rw [round_eq, (by norm_num : (7 : ℚ) / 10 + 1 / 2 = 6 / 5), Int.floor_eq_iff]
      norm_num
    rw [hround]
    decide
  have hcb : createBlob [7 / 327680] = [0, 0] := by
    unfold createBlob
    rw [List.map_cons, List.map_nil, hj]
    decide
  have hscb : specCreateBlob [7 / 327680] = [1, 0] := by
    unfold specCreateBlob
    rw [List.map_cons, List.map_nil, hr]
    decide
  refine ⟨hcb, hscb, ?_⟩
  rw [hcb, hscb]
  decide

/-- C5, amended: `createBlob` maps every input float sample `s` to the
16-bit signed integer `trunc(clamp(s, -1, 1) * 32768)` (truncation toward
zero, not rounding), clamped to `[-32768, 32767]`, and packs the resulting
integers little-endian into the wire byte output. -/
theorem createBlob_truncates (data : List ℚ) :
    createBlob data = (data.map truncSpecInt16).flatMap int16ToBytesLE := by
  unfold createBlob
  rw [List.map_congr_left (fun s _ => jsToInt16_eq_truncSpec s)]

/-- C6: the claim says `decodeAudioData` never fails or throws for any
byte input, sample rate, and channel count, and that a non-positive
`numChannels` yields a 1-channel silent buffer.  The code, however, passes
`numChannels` straight to `ctx.createBuffer` (line 56) *before* its
`numChannels <= 0` fallback branch (lines 81-84), and `createBuffer`
throws `NotSupportedError` for 0 channels, so the commented fallback
("Fallback to silent mono buffer") is unreachable: with `numChannels = 0`
and two bytes of input the call throws. -/
theorem decodeAudioData_zero_channels_throws :
    decodeAudioData 32 [0, 0] 48000 0 = Except.error "NotSupportedError" := by
  rfl

theorem throttleRun_sublist {α : Type} (delay : ℚ) :
    ∀ (lastCall : ℚ) (calls : List (ℚ × α)),
      (throttleRun delay lastCall calls).Sublist calls := by
  intro lastCall calls
  induction calls generalizing lastCall with
  | nil => simp [throttleRun]
  | cons c rest ih =>
      obtain ⟨now, x⟩ := c
      unfold throttleRun
      split_ifs with h
      · exact (ih now).cons₂ _
      · exact (ih lastCall).cons _

theorem throttleRun_head_ge {α : Type} (delay : ℚ) :
    ∀ (lastCall : ℚ) (calls : List (ℚ × α)) (p : ℚ × α),
      (throttleRun delay lastCall calls).head? = some p → delay ≤ p.1 - lastCall := by
  intro lastCall calls
  induction calls generalizing lastCall with
  | nil => intro p hp; simp [throttleRun] at hp
  | cons c rest ih =>
      obtain ⟨now, x⟩ := c
      intro p hp
      unfold throttleRun at hp
      split_ifs at hp with h
      · simp only [List.head?_cons, Option.some.injEq] at hp
        rw [← hp]
        exact h
      · exact ih lastCall p hp

theorem throttleRun_chain {α : Type} (delay : ℚ) :
    ∀ (lastCall : ℚ) (calls : List (ℚ × α)),
      List.Chain' (fun a b => delay ≤ b.1 - a.1) (throttleRun delay lastCall calls) := by
  intro lastCall calls
  induction calls generalizing lastCall with
  | nil => simp [throttleRun]
  | cons c rest ih =>
      obtain ⟨now, x⟩ := c
      unfold throttleRun
      split_ifs with h
      · rw [List.chain'_cons']
        exact ⟨fun p hp => throttleRun_head_ge delay now rest p (Option.mem_def.mp hp),
          ih now⟩
      · exact ih lastCall

/-- C7, counterexample: the claim says the throttle always sends the most
recent state of a burst.  The source's `throttle` (lines 37-47) executes
only on the leading edge and queues nothing: a call within `delay` ms of
the last executed call is dropped outright.  With sends throttled at
200 ms, calls at t=1000 (state 0) and t=1100 (state 1) produce exactly one
send, of state 0 — the most recent state 1 never reaches the transport. -/
theorem throttle_drops_latest_counterexample :
    setSessionPromptsSends [((1000 : ℚ), (0 : ℕ)), (1100, 1)] = [(1000, 0)] ∧
    (1 : ℕ) ∉ (setSessionPromptsSends [((1000 : ℚ), (0 : ℕ)), (1100, 1)]).map Prod.snd := by
  have h : setSessionPromptsSends [((1000 : ℚ), (0 : ℕ)), (1100, 1)] = [(1000, 0)] := by
    unfold setSessionPromptsSends
    rw [throttleRun, if_pos (by norm_num), throttleRun, if_neg (by norm_num), throttleRun]
  rw [h]
  exact ⟨rfl, by decide⟩

/-- C7, amended: outbound prompt/config updates are throttled to a
minimum interval between sends (200 ms for `setSessionPrompts`): every
pair of consecutive sends is at least `delay` apart; each send transmits
exactly one of the supplied calls with its state of that moment (the sends
form a subsequence of the calls — never an average); but nothing is
queued: a call arriving within the interval is dropped entirely, so the
most recent state of a rapid burst is not guaranteed to be sent. -/
theorem throttle_sends_subsequence_min_interval {α : Type} (delay lastCall : ℚ)
    (calls : List (ℚ × α)) :
    (throttleRun delay lastCall calls).Sublist calls ∧
    List.Chain' (fun a b => delay ≤ b.1 - a.1) (throttleRun delay lastCall calls) ∧
    (setSessionPromptsSends calls).Sublist calls ∧
    List.Chain' (fun a b => 200 ≤ b.1 - a.1) (setSessionPromptsSends calls) :=
  ⟨throttleRun_sublist delay lastCall calls, throttleRun_chain delay lastCall calls,
    throttleRun_sublist 200 0 calls, throttleRun_chain 200 0 calls⟩

/-- One chunk step preserves the post-underrun configuration: still
`loading`, `nextStartTime` nonzero, no pending timer. -/
theorem onAudioChunk_post_underrun (s : SchedState) (now dur : ℚ)
    (hnow : 0 ≤ now) (hdur : 0 ≤ dur)
    (hload : s.playbackState = .loading) (hnz : s.nextStartTime ≠ 0)
    (hpend : s.pendingTimers = []) :
    (onAudioChunk s now dur).playbackState = .loading ∧
    (onAudioChunk s now dur).nextStartTime ≠ 0 ∧
    (onAudioChunk s now dur).pendingTimers = [] := by
  have hgate : ¬(s.playbackState = .paused ∨ s.playbackState = .stopped) := by
    simp [hload]
  by_cases hur : s.nextStartTime < now
  · have h3 : (onAudioChunk s now dur).playbackState = .loading ∧
        (onAudioChunk s now dur).nextStartTime = now + bufferTime + dur ∧
        (onAudioChunk s now dur).pendingTimers = [] := by
      unfold onAudioChunk
      rw [if_neg hgate]
      simp [hnz, hur, hpend]
    refine ⟨h3.1, ?_, h3.2.2⟩
    rw [h3.2.1]
    have hpos : 0 < now + bufferTime + dur := by unfold bufferTime; linarith
    exact hpos.ne'
  · have h3 : (onAudioChunk s now dur).playbackState = s.playbackState ∧
        (onAudioChunk s now dur).nextStartTime = s.nextStartTime + dur ∧
        (onAudioChunk s now dur).pendingTimers = s.pendingTimers := by
      unfold onAudioChunk
      rw [if_neg hgate]
      simp [hnz, hur]
    refine ⟨h3.1.trans hload, ?_, h3.2.2.trans hpend⟩
    rw [h3.2.1]
    have hge : now ≤ s.nextStartTime := not_lt.mp hur
    have hpos : 0 < s.nextStartTime := lt_of_le_of_ne (by linarith) (Ne.symm hnz)
    have : 0 < s.nextStartTime + dur := by linarith
    exact this.ne'

/-- C10: after an underrun re-anchor the scheduler never arms a new
deferred loading-to-playing transition: the `setTimeout` is armed only
when `nextStartTime = 0` and the underrun branch leaves `nextStartTime`
nonzero, so — with the run's one-shot timer already fired and no user or
connection event delivered — any further sequence of chunk arrivals and
timer-fire events keeps the state `loading`, arms no timer, and keeps
`nextStartTime` nonzero, even though buffers continue to be scheduled. -/
theorem scheduler_stays_loading_after_underrun (s : SchedState)
    (events : List SchedEvent)
    (hload : s.playbackState = .loading) (hnz : s.nextStartTime ≠ 0)
    (hpend : s.pendingTimers = []) (hev : ∀ e ∈ events, eventWF e) :
    (runEvents s events).playbackState = .loading ∧
    (runEvents s events).nextStartTime ≠ 0 ∧
    (runEvents s events).pendingTimers = [] := by
  induction events generalizing s with
  | nil => exact ⟨hload, hnz, hpend⟩
  | cons e rest ih =>
      have h1 := hev e (List.mem_cons_self e rest)
      have hrest : ∀ e ∈ rest, eventWF e := fun e he => hev e (List.mem_cons_of_mem _ he)
      cases e with
      | chunk now dur =>
          obtain ⟨hc1, hc2, hc3⟩ :=
            onAudioChunk_post_underrun s now dur h1.1 h1.2 hload hnz hpend
          exact ih (onAudioChunk s now dur) hc1 hc2 hc3 hrest
      | timer =>
          have hfix : fireTimer s = s := by
            unfold fireTimer
            rw [hpend]
          have hrun : runEvents s (SchedEvent.timer :: rest) = runEvents s rest := by
            unfold runEvents
            rw [List.foldl_cons]
            show runEvents (fireTimer s) rest = runEvents s rest
            rw [hfix]
          rw [hrun]
          exact ih s hload hnz hpend hrest

theorem scheduler_stays_loading_after_underrun_witness :
    (runEvents ⟨.loading, 12, [], [(10, 1)], 1, 1⟩
      [.chunk 5 1, .timer, .chunk 20 2]).playbackState = .loading ∧
    (runEvents ⟨.loading, 12, [], [(10, 1)], 1, 1⟩
      [.chunk 5 1, .timer, .chunk 20 2]).nextStartTime ≠ 0 ∧
    (runEvents ⟨.loading, 12, [], [(10, 1)], 1, 1⟩
      [.chunk 5 1, .timer, .chunk 20 2]).pendingTimers = [] :=
  scheduler_stays_loading_after_underrun ⟨.loading, 12, [], [(10, 1)], 1, 1⟩
    [.chunk 5 1, .timer, .chunk 20 2] rfl (by decide) rfl (by decide)

/-- One chunk step when no underrun fires: the buffer is scheduled at the
current (possibly freshly anchored) `nextStartTime`, which then advances
by the buffer's duration; the playback state is untouched. -/
theorem onAudioChunk_noUnderrun (s : SchedState) (now dur : ℚ)
    (hgate : ¬(s.playbackState = .paused ∨ s.playbackState = .stopped))
    (hno : s.nextStartTime = 0 ∨ now ≤ s.nextStartTime) :
    onAudioChunk s now dur =
      { s with
        decodeCalls := s.decodeCalls + 1,
        pendingTimers :=
          if s.nextStartTime = 0 then s.pendingTimers ++ [bufferTime * 1000]
          else s.pendingTimers,
        scheduled := s.scheduled ++
          [((if s.nextStartTime = 0 then now + bufferTime else s.nextStartTime), dur)],
        nextStartTime :=
          (if s.nextStartTime = 0 then now + bufferTime else s.nextStartTime) + dur } := by
  unfold onAudioChunk
  rw [if_neg hgate]
  by_cases h0 : s.nextStartTime = 0
  · have hlate : ¬(now + bufferTime < now) := by unfold bufferTime; linarith
    simp [h0, hlate]
  · have hlate : ¬(s.nextStartTime < now) := not_lt.mpr (hno.resolve_left h0)
    simp [h0, hlate]

/-- Along an underrun-free run of chunk arrivals the `scheduled` list is
extended by exactly the chain of back-to-back start times, and the
playback state is untouched. -/
theorem runChunks_schedule (events : List (ℚ × ℚ)) : ∀ (s : SchedState),
    ¬(s.playbackState = .paused ∨ s.playbackState = .stopped) →
    noUnderrunRun s events = true →
    (runChunks s events).scheduled = s.scheduled ++ chainStarts s.nextStartTime events ∧
    (runChunks s events).playbackState = s.playbackState := by
  induction events with
  | nil => intro s _ _; simp [runChunks, chainStarts]
  | cons e rest ih =>
      intro s hgate hno
      obtain ⟨now, dur⟩ := e
      unfold noUnderrunRun at hno
      simp only [Bool.and_eq_true, decide_eq_true_eq] at hno
      have hstep := onAudioChunk_noUnderrun s now dur hgate hno.1
      have hstate : (onAudioChunk s now dur).playbackState = s.playbackState := by
        rw [hstep]
      have hrun : runChunks s ((now, dur) :: rest) =
          runChunks (onAudioChunk s now dur) rest := rfl
      have hgate' : ¬((onAudioChunk s now dur).playbackState = .paused ∨
          (onAudioChunk s now dur).playbackState = .stopped) := by
        rw [hstate]; exact hgate
      obtain ⟨ihs, ihp⟩ := ih (onAudioChunk s now dur) hgate' hno.2
      rw [hrun]
      refine ⟨?_, ihp.trans hstate⟩
      rw [ihs, hstep]
      show (s.scheduled ++ [_]) ++
          chainStarts ((if s.nextStartTime = 0 then now + bufferTime else s.nextStartTime) + dur)
            rest = s.scheduled ++ chainStarts s.nextStartTime ((now, dur) :: rest)
      rw [List.append_assoc]
      rfl

theorem chainStarts_forall₂ (events : List (ℚ × ℚ)) : ∀ anchor,
    List.Forall₂ (fun sch ev => sch.2 = ev.2) (chainStarts anchor events) events := by
  induction events with
  | nil => intro anchor; exact List.Forall₂.nil
  | cons e rest ih =>
      intro anchor
      obtain ⟨now, dur⟩ := e
      exact List.Forall₂.cons rfl (ih _)

theorem chainStarts_chain_pos (events : List (ℚ × ℚ)) : ∀ anchor, 0 < anchor →
    (∀ e ∈ events, 0 ≤ e.1 ∧ 0 ≤ e.2) →
    List.Chain' (fun a b => b.1 = a.1 + a.2) (chainStarts anchor events) ∧
    ∀ p ∈ (chainStarts anchor events).head?, p.1 = anchor := by
  induction events with
  | nil => intro anchor _ _; simp [chainStarts]
  | cons e rest ih =>
      intro anchor hanchor hev
      obtain ⟨now, dur⟩ := e
      have hdur : 0 ≤ dur := (hev (now, dur) (List.mem_cons_self _ _)).2
      have hanch' : 0 < anchor + dur := by linarith
      have hne : ¬(anchor = 0) := hanchor.ne'
      obtain ⟨hc, hh⟩ := ih (anchor + dur) hanch'
        (fun e he => hev e (List.mem_cons_of_mem _ he))
      have hshape : chainStarts anchor ((now, dur) :: rest) =
          (anchor, dur) :: chainStarts (anchor + dur) rest := by
        simp [chainStarts, hne]
      rw [hshape]
      constructor
      · rw [List.chain'_cons']
        exact ⟨fun p hp => hh p hp, hc⟩
      · intro p hp
        simp only [List.head?_cons, Option.mem_def, Option.some.injEq] at hp
        rw [← hp]

theorem chainStarts_chain (events : List (ℚ × ℚ)) (anchor : ℚ) (hanchor : 0 ≤ anchor)
    (hev : ∀ e ∈ events, 0 ≤ e.1 ∧ 0 ≤ e.2) :
    List.Chain' (fun a b => b.1 = a.1 + a.2) (chainStarts anchor events) := by
  cases events with
  | nil => simp [chainStarts]
  | cons e rest =>
      obtain ⟨now, dur⟩ := e
      have hnow : 0 ≤ now := (hev (now, dur) (List.mem_cons_self _ _)).1
      have hdur : 0 ≤ dur := (hev (now, dur) (List.mem_cons_self _ _)).2
      have hpos : 0 < (if anchor = 0 then now + bufferTime else anchor) := by
        split_ifs with h0
        · unfold bufferTime; linarith
        · exact lt_of_le_of_ne hanchor (Ne.symm h0)
      have hpos' : 0 < (if anchor = 0 then now + bufferTime else anchor) + dur := by
        linarith
      obtain ⟨hc, hh⟩ := chainStarts_chain_pos rest _ hpos'
        (fun e he => hev e (List.mem_cons_of_mem _ he))
      show List.Chain' _ (((if anchor = 0 then now + bufferTime else anchor), dur) ::
        chainStarts ((if anchor = 0 then now + bufferTime else anchor) + dur) rest)
      rw [List.chain'_cons']
      exact ⟨fun p hp => hh p hp, hc⟩

theorem chainStarts_dur_pos (events : List (ℚ × ℚ)) : ∀ anchor,
    (∀ e ∈ events, 0 < e.2) → ∀ p ∈ chainStarts anchor events, 0 < p.2 := by
  induction events with
  | nil => intro anchor _ p hp; simp [chainStarts] at hp
  | cons e rest ih =>
      intro anchor hev p hp
      obtain ⟨now, dur⟩ := e
      have hshape : chainStarts anchor ((now, dur) :: rest) =
          ((if anchor = 0 then now + bufferTime else anchor), dur) ::
            chainStarts ((if anchor = 0 then now + bufferTime else anchor) + dur) rest := rfl
      rw [hshape] at hp
      rcases List.mem_cons.mp hp with hp | hp
      · rw [hp]
        exact hev (now, dur) (List.mem_cons_self _ _)
      · exact ih _ (fun e he => hev e (List.mem_cons_of_mem _ he)) p hp

theorem chain_eq_to_lt : ∀ (l : List (ℚ × ℚ)),
    List.Chain' (fun a b => b.1 = a.1 + a.2) l → (∀ p ∈ l, 0 < p.2) →
    List.Chain' (fun a b : ℚ × ℚ => a.1 < b.1) l := by
  intro l
  induction l with
  | nil => intro _ _; simp
  | cons a t ih =>
      intro hc hp
      cases t with
      | nil => simp
      | cons b t' =>
          rw [List.chain'_cons] at hc ⊢
          refine ⟨?_, ih hc.2 (fun p hp' => hp p (List.mem_cons_of_mem _ hp'))⟩
          have hpa := hp a (List.mem_cons_self _ _)
          rw [hc.1]
          linarith

/-- C1: in an underrun-free run (state `loading` or `playing`, and at each
arrival the current `nextStartTime` is the uninitialized sentinel 0 or at
least the audio-clock reading, so the underrun branch never fires),
processing a sequence of decoded buffers schedules each buffer to begin
exactly at the current `nextStartTime` — the first at its anchor, each
later one where the previous buffer ended (`chainStarts`) — and advances
`nextStartTime` by exactly that buffer's duration.  Hence the scheduled
entries carry the buffers' durations in arrival order, every start after
the first equals the previous start plus the previous duration, and (for
positive durations) start times are strictly increasing, so buffers never
overlap and are never reordered. -/
theorem scheduler_sequential_schedule (s : SchedState) (events : List (ℚ × ℚ))
    (hstate : s.playbackState = .loading ∨ s.playbackState = .playing)
    (hsched : s.scheduled = [])
    (hanchor : 0 ≤ s.nextStartTime)
    (hev : ∀ e ∈ events, 0 ≤ e.1 ∧ 0 < e.2)
    (hno : noUnderrunRun s events = true) :
    (runChunks s events).scheduled = chainStarts s.nextStartTime events ∧
    List.Forall₂ (fun sch ev => sch.2 = ev.2) (runChunks s events).scheduled events ∧
    List.Chain' (fun a b => b.1 = a.1 + a.2) (runChunks s events).scheduled ∧
    List.Pairwise (fun a b => a.1 < b.1) (runChunks s events).scheduled := by
  have hgate : ¬(s.playbackState = .paused ∨ s.playbackState = .stopped) := by
    rcases hstate with h | h <;> simp [h]
  obtain ⟨hrun, -⟩ := runChunks_schedule events s hgate hno
  rw [hsched, List.nil_append] at hrun
  have hev' : ∀ e ∈ events, 0 ≤ e.1 ∧ 0 ≤ e.2 :=
    fun e he => ⟨(hev e he).1, (hev e he).2.le⟩
  have hchain := chainStarts_chain events s.nextStartTime hanchor hev'
  have hlt := chain_eq_to_lt _ hchain
    (chainStarts_dur_pos events s.nextStartTime (fun e he => (hev e he).2))
  haveI : IsTrans (ℚ × ℚ) (fun a b => a.1 < b.1) := ⟨fun _ _ _ h1 h2 => h1.trans h2⟩
  refine ⟨hrun, ?_, ?_, ?_⟩
  · rw [hrun]; exact chainStarts_forall₂ events s.nextStartTime
  · rw [hrun]; exact hchain
  · rw [hrun]; exact List.chain'_iff_pairwise.mp hlt

theorem scheduler_sequential_schedule_witness :
    (runChunks ⟨.loading, 0, [], [], 0, 0⟩
        ([(5, 1), (5, 2), (6, 3)] : List (ℚ × ℚ))).scheduled =
      chainStarts 0 ([(5, 1), (5, 2), (6, 3)] : List (ℚ × ℚ)) ∧
    List.Forall₂ (fun sch ev => sch.2 = ev.2)
      (runChunks ⟨.loading, 0, [], [], 0, 0⟩
        ([(5, 1), (5, 2), (6, 3)] : List (ℚ × ℚ))).scheduled
      ([(5, 1), (5, 2), (6, 3)] : List (ℚ × ℚ)) ∧
    List.Chain' (fun a b => b.1 = a.1 + a.2)
      (runChunks ⟨.loading, 0, [], [], 0, 0⟩
        ([(5, 1), (5, 2), (6, 3)] : List (ℚ × ℚ))).scheduled ∧
    List.Pairwise (fun a b => a.1 < b.1)
      (runChunks ⟨.loading, 0, [], [], 0, 0⟩
        ([(5, 1), (5, 2), (6, 3)] : List (ℚ × ℚ))).scheduled :=
  scheduler_sequential_schedule ⟨.loading, 0, [], [], 0, 0⟩
    ([(5, 1), (5, 2), (6, 3)] : List (ℚ × ℚ))
    (Or.inl rfl) rfl (by decide) (by decide)
    (by norm_num +decide [noUnderrunRun, onAudioChunk, bufferTime])

theorem jsToInt16_range (s : ℚ) : -32768 ≤ jsToInt16 s ∧ jsToInt16 s ≤ 32767 := by
  unfold jsToInt16 jsTrunc
  set c := max (-32768 : ℚ) (min 32767 (s * 32768)) with hc
  have hc1 : (-32768 : ℚ) ≤ c := le_max_left _ _
  have hc2 : c ≤ 32767 := by
    rw [hc]
    apply max_le
    · norm_num
    · exact min_le_left _ _
  split_ifs with h
  · constructor
    · exact Int.le_floor.mpr (by push_cast; linarith)
    · have hle := Int.floor_le c
      have h2 : (⌊c⌋ : ℚ) ≤ 32767 := le_trans hle hc2
      exact_mod_cast h2
  · constructor
    · have hge := Int.le_ceil c
      have h2 : (-32768 : ℚ) ≤ (⌈c⌉ : ℚ) := le_trans hc1 hge
      exact_mod_cast h2
    · exact Int.ceil_le.mpr (by push_cast; linarith)

/-- A 16-bit value in range survives the little-endian byte split and
reassembly. -/
theorem int16_bytes_roundtrip (v : ℤ) (h1 : -32768 ≤ v) (h2 : v ≤ 32767) :
    int16FromBytes ((v % 65536).toNat % 256) ((v % 65536).toNat / 256) = v := by
  simp only [int16FromBytes]
  split_ifs with h <;> omega

/-- Decoding the packed bytes recovers exactly the truncated-and-clamped
samples divided by 32768. -/
theorem decodeSamples_createBlob (s : List ℚ) :
    decodeSamples (createBlob s) = s.map (fun x => ((jsToInt16 x : ℤ) : ℚ) / 32768) := by
  induction s with
  | nil => rfl
  | cons x rest ih =>
      have h1 : createBlob (x :: rest) = int16ToBytesLE (jsToInt16 x) ++ createBlob rest := by
        unfold createBlob
        rw [List.map_cons, List.flatMap_cons]
      have h2 : int16ToBytesLE (jsToInt16 x) =
          [(jsToInt16 x % 65536).toNat % 256, (jsToInt16 x % 65536).toNat / 256] := rfl
      obtain ⟨hr1, hr2⟩ := jsToInt16_range x
      have h3 : int16FromBytes ((jsToInt16 x % 65536).toNat % 256)
          ((jsToInt16 x % 65536).toNat / 256) = jsToInt16 x :=
        int16_bytes_roundtrip _ hr1 hr2
      have h4 : decodeSamples ([(jsToInt16 x % 65536).toNat % 256,
            (jsToInt16 x % 65536).toNat / 256] ++ createBlob rest) =
          ((int16FromBytes ((jsToInt16 x % 65536).toNat % 256)
            ((jsToInt16 x % 65536).toNat / 256) : ℤ) : ℚ) / 32768 ::
            decodeSamples (createBlob rest) := rfl
      rw [h1, h2, h4, h3, ih, List.map_cons]

/-- Pointwise quantization bound: on `[-1, 1]` the encoded value is within
one integer step of the scaled sample. -/
theorem jsToInt16_close (x : ℚ) (h1 : -1 ≤ x) (h2 : x ≤ 1) :
    |((jsToInt16 x : ℤ) : ℚ) - x * 32768| ≤ 1 := by
  have hx1 : (-32768 : ℚ) ≤ x * 32768 := by linarith
  have hx2 : x * 32768 ≤ 32768 := by linarith
  unfold jsToInt16 jsTrunc
  rcases le_or_lt (x * 32768) 32767 with hcl | hcl
  · have hm : max (-32768 : ℚ) (min 32767 (x * 32768)) = x * 32768 := by
      rw [min_eq_right hcl, max_eq_right hx1]
    rw [hm]
    split_ifs with h0
    · rw [abs_le]
      constructor
      · have := Int.sub_one_lt_floor (x * 32768)
        linarith
      · have := Int.floor_le (x * 32768)
        linarith
    · rw [abs_le]
      constructor
      · have := Int.le_ceil (x * 32768)
        linarith
      · have := Int.ceil_lt_add_one (x * 32768)
        linarith
  · have hm : max (-32768 : ℚ) (min 32767 (x * 32768)) = 32767 := by
      rw [min_eq_left hcl.le]
      norm_num
    rw [hm, if_pos (by norm_num : (0 : ℚ) ≤ 32767)]
    have hf : ⌊(32767 : ℚ)⌋ = 32767 := by
      rw [show (32767 : ℚ) = ((32767 : ℤ) : ℚ) by norm_num, Int.floor_intCast]
    rw [hf, abs_le]
    constructor <;> push_cast <;> linarith

/-- C8: for every float sample sequence with samples in `[-1, 1]`,
decoding the encoded wire bytes (`decodeSamples ∘ createBlob`) reproduces
the sequence elementwise with absolute error at most `1/32768`, where
`decodeSamples` maps each 16-bit integer back via `int16 / 32768`. -/
theorem codec_roundtrip_bound (s : List ℚ) (h : ∀ x ∈ s, -1 ≤ x ∧ x ≤ 1) :
    List.Forall₂ (fun d x => |d - x| ≤ 1 / 32768)
      (decodeSamples (createBlob s)) s := by
  rw [decodeSamples_createBlob]
  induction s with
  | nil => exact List.Forall₂.nil
  | cons x rest ih =>
      rw [List.map_cons]
      obtain ⟨hx1, hx2⟩ := h x (List.mem_cons_self _ _)
      refine List.Forall₂.cons ?_ (ih (fun y hy => h y (List.mem_cons_of_mem _ hy)))
      have hb := jsToInt16_close x hx1 hx2
      have heq : ((jsToInt16 x : ℤ) : ℚ) / 32768 - x =
          (((jsToInt16 x : ℤ) : ℚ) - x * 32768) / 32768 := by ring
      rw [heq, abs_div, abs_of_pos (by norm_num : (0 : ℚ) < 32768)]
      exact (div_le_div_iff_of_pos_right (by norm_num)).mpr hb

theorem codec_roundtrip_bound_witness :
    List.Forall₂ (fun d x => |d - x| ≤ 1 / 32768)
      (decodeSamples (createBlob [1 / 2, -1, 1])) [1 / 2, -1, 1] :=
  codec_roundtrip_bound [1 / 2, -1, 1] (by norm_num)

theorem jsToUint32_natCast (n : ℕ) (h : n < 2 ^ 32) : jsToUint32 (n : ℚ) = n := by
  unfold jsToUint32
  rw [show ((n : ℚ)) = ((n : ℤ) : ℚ) by push_cast; ring, jsTrunc_intCast]
  omega

theorem jsTrunc_nat_div (L m : ℕ) :
    jsTrunc ((L : ℚ) / (m : ℚ)) = ((L / m : ℕ) : ℤ) := by
  unfold jsTrunc
  rw [if_pos (by positivity)]
  rw [show ((L : ℚ)) = ((L : ℤ) : ℚ) by push_cast; ring,
    Rat.floor_intCast_div_natCast]
  omega

/-- Sequentially `copyToChannel`-ing `g 0, …, g (k-1)` into the first `k`
channels of a buffer whose channels all have `fc` frames replaces them by
`g 0, …, g (k-1)` and leaves the rest. -/
theorem foldlM_copyToChannel (rate : ℚ) (g : ℕ → List ℚ) (fc : ℕ)
    (hg : ∀ i, (g i).length = fc) :
    ∀ (k : ℕ) (cs : List (List ℚ)), (∀ l ∈ cs, l.length = fc) → k ≤ cs.length →
      (List.range k).foldlM (fun b i => copyToChannel b (g i) i)
          (⟨rate, cs⟩ : AudioBuffer) =
        Except.ok ⟨rate, (List.range k).map g ++ cs.drop k⟩ := by
  intro k
  induction k with
  | zero => intro cs hcs hk; rfl
  | succ k ih =>
      intro cs hcs hk
      have hklt : k < cs.length := hk
      rw [List.range_succ, List.foldlM_append, ih cs hcs (Nat.le_of_succ_le hk)]
      show (List.foldlM (fun b i => copyToChannel b (g i) i)
          (⟨rate, (List.range k).map g ++ cs.drop k⟩ : AudioBuffer) [k]) =
        Except.ok ⟨rate, (List.range k ++ [k]).map g ++ cs.drop (k + 1)⟩
      have hlen : ((List.range k).map g ++ cs.drop k).length = cs.length := by
        simp [List.length_drop]
        omega
      have hklen : k < ((List.range k).map g ++ cs.drop k).length := by omega
      have hdropk : cs.drop k = cs[k] :: cs.drop (k + 1) :=
        List.drop_eq_getElem_cons hklt
      have hlenmap : ((List.range k).map g).length = k := by
        rw [List.length_map, List.length_range]
      have hget : ((List.range k).map g ++ cs.drop k).get ⟨k, hklen⟩ = cs[k] := by
        rw [List.get_eq_getElem,
          List.getElem_append_right (le_of_eq hlenmap), List.getElem_drop]
        have hidx : k + (k - ((List.range k).map g).length) = k := by omega
        simp only [hidx]
      have hcsk : cs[k].length = fc := hcs _ (List.getElem_mem hklt)
      show (copyToChannel ⟨rate, (List.range k).map g ++ cs.drop k⟩ (g k) k >>=
          fun b => List.foldlM (fun b i => copyToChannel b (g i) i) b []) = _
      unfold copyToChannel
      rw [dif_pos hklen]
      simp only [hget, List.foldlM_nil]
      have hmin : min (g k).length cs[k].length = fc := by
        rw [hg k, hcsk, min_self]
      rw [hmin]
      have htake : (g k).take fc = g k := by
        rw [← hg k]; exact List.take_length _
      have hdrop2 : cs[k].drop fc = [] := by
        rw [← hcsk]; exact List.drop_length _
      rw [htake, hdrop2, List.append_nil]
      have hset : ((List.range k).map g ++ cs.drop k).set k (g k) =
          (List.range k ++ [k]).map g ++ cs.drop (k + 1) := by
        rw [List.set_append,
          if_neg (by rw [List.length_map, List.length_range]; exact lt_irrefl k)]
        rw [hdropk]
        simp only [List.length_map, List.length_range, Nat.sub_self,
          List.set_cons_zero]
        rw [List.map_append, List.map_cons, List.map_nil,
          List.append_assoc, List.singleton_append]
      rw [hset]
      rfl

/-- C9: for an even-length wire input whose 16-bit sample count is at
least `numChannels` (so the computed frame count is nonzero) and
`2 ≤ numChannels ≤ 32`, `decodeAudioData` de-interleaves: it returns a
buffer whose channel `c` is the list of frames `j < ⌊samples / ch⌋`, frame
`j` being the decoded wire sample at flat index `j * numChannels + c`
(the `getD` default is never hit: every such index is below the sample
count).  `maxCh` is the implementation's `createBuffer` channel limit,
at least 32 per the Web Audio standard; the byte length bound keeps the
`ToUint32` conversion of the frame count the identity. -/
theorem buildBuffer_deinterleaves (maxCh : ℕ) (data : List ℕ) (rate : ℚ) (ch : ℕ)
    (hmax : 32 ≤ maxCh) (hch2 : 2 ≤ ch) (hch32 : ch ≤ 32)
    (heven : data.length % 2 = 0) (hlen : ch ≤ data.length / 2)
    (hsize : data.length < 2 ^ 32) :
    decodeAudioData maxCh data rate (ch : ℤ) =
      Except.ok ⟨rate, (List.range ch).map (fun c =>
        (List.range (data.length / 2 / ch)).map
          (fun j => (decodeSamples data).getD (j * ch + c) 0))⟩ := by
  have hL4 : 4 ≤ data.length := by omega
  have hfc1 : 1 ≤ data.length / 2 / ch := by
    rw [Nat.le_div_iff_mul_le (by omega), one_mul]
    exact hlen
  have hcast : ((ch : ℤ) : ℚ) = ((ch : ℕ) : ℚ) := by push_cast; ring
  have hbl : ((data.length : ℚ)) / 2 / ((ch : ℤ) : ℚ) =
      ((data.length : ℕ) : ℚ) / ((2 * ch : ℕ) : ℚ) := by
    rw [hcast, div_div]
    push_cast
    ring_nf
  have hblpos : (0 : ℚ) < ((data.length : ℕ) : ℚ) / ((2 * ch : ℕ) : ℚ) := by
    apply div_pos
    · exact_mod_cast (by omega : 0 < data.length)
    · exact_mod_cast (by omega : 0 < 2 * ch)
  have hfc_eq : data.length / 2 / ch = data.length / (2 * ch) :=
    Nat.div_div_eq_div_mul _ _ _
  have htrunc : jsTrunc (((data.length : ℕ) : ℚ) / ((2 * ch : ℕ) : ℚ)) =
      ((data.length / 2 / ch : ℕ) : ℤ) := by
    rw [jsTrunc_nat_div, hfc_eq]
  have hfcsize : data.length / 2 / ch < 2 ^ 32 := by
    have := Nat.div_le_self (data.length / 2) ch
    have := Nat.div_le_self data.length 2
    omega
  have hjsl : jsToUint32 (((data.length : ℚ)) / 2 / ((ch : ℤ) : ℚ)) =
      data.length / 2 / ch := by
    unfold jsToUint32
    rw [hbl, htrunc]
    omega
  have hjsc : jsToUint32 (((ch : ℤ) : ℚ)) = ch := by
    rw [hcast]
    exact jsToUint32_natCast ch (by omega)
  unfold decodeAudioData
  rw [if_pos heven, if_neg (by
    rintro ⟨-, habs⟩
    rw [hbl] at habs
    exact absurd habs hblpos.ne')]
  rw [hjsc, if_neg (by exact_mod_cast (by omega : ¬(ch = 0))), hjsl]
  have hcreate : createBuffer maxCh ch (data.length / 2 / ch) rate =
      Except.ok ⟨rate, List.replicate ch (List.replicate (data.length / 2 / ch) 0)⟩ := by
    unfold createBuffer
    rw [if_neg (by push_neg; omega)]
  simp only [hcreate]
  rw [if_neg (by exact_mod_cast (by omega : ¬(ch = 1)))]
  rw [if_pos (by exact_mod_cast (by omega : 1 < ch))]
  have htn : (((data.length / 2 / ch : ℕ) : ℤ)).toNat = data.length / 2 / ch := by omega
  have htn2 : ((ch : ℤ)).toNat = ch := by omega
  simp only [hbl, htrunc, htn, htn2, List.take_length]
  have hfold := foldlM_copyToChannel rate
    (fun i => (List.range (data.length / 2 / ch)).map
      (fun j => (decodeSamples data).getD (j * ch + i) 0))
    (data.length / 2 / ch)
    (fun i => by simp)
    ch (List.replicate ch (List.replicate (data.length / 2 / ch) 0))
    (fun l hl => by rw [List.eq_of_mem_replicate hl]; simp)
    (by simp)
  have hdropall :
      (List.replicate ch (List.replicate (data.length / 2 / ch) (0 : ℚ))).drop ch = [] := by
    have hdl := List.drop_length
      (List.replicate ch (List.replicate (data.length / 2 / ch) (0 : ℚ)))
    rwa [List.length_replicate] at hdl
  rw [hfold, hdropall, List.append_nil]

theorem buildBuffer_deinterleaves_witness :
    decodeAudioData 32 [1, 0, 2, 0, 3, 0, 4, 0] 48000 ((2 : ℕ) : ℤ) =
      Except.ok ⟨48000, (List.range 2).map (fun c =>
        (List.range ([1, 0, 2, 0, 3, 0, 4, 0].length / 2 / 2)).map
          (fun j => (decodeSamples [1, 0, 2, 0, 3, 0, 4, 0]).getD (j * 2 + c) 0))⟩ :=
  buildBuffer_deinterleaves 32 [1, 0, 2, 0, 3, 0, 4, 0] 48000 2
    (by decide) (by decide) (by decide) (by decide) (by decide) (by decide)

end Inv2025
